import Mathlib

/-!
Verification of the text-understanding core of the Journal_app repository
(`src/lib/journal.ts` plus the add-intent predicate of
`src/app/api/chat/route.ts`).

Strings are modelled as `List Char`; JavaScript string methods are embedded
char-by-char.  `String.prototype.toLowerCase` is embedded as the ASCII case
map (the only characters the pipeline can feed it that have case are ASCII,
since every claim-relevant regex class is ASCII).  The JavaScript `\s` class
and `String.prototype.trim` use the ECMAScript WhiteSpace/LineTerminator
set, listed explicitly below.
-/

set_option maxRecDepth 10000

namespace Journal

/-- Code points matched by the ECMAScript `\s` class (also the set removed
by `String.prototype.trim`). -/
def isWsCode (n : Nat) : Bool :=
  (9 ≤ n && n ≤ 13) || n == 32 || n == 160 || n == 5760 ||
  (8192 ≤ n && n ≤ 8202) || n == 8232 || n == 8233 || n == 8239 ||
  n == 8287 || n == 12288 || n == 65279

def wsB (c : Char) : Bool := isWsCode c.toNat

def isUpperCode (n : Nat) : Bool := 65 ≤ n && n ≤ 90

/-- `String.prototype.toLowerCase`, char-wise on ASCII letters. -/
def jsLowerChar (c : Char) : Char :=
  if isUpperCode c.toNat then Char.ofNat (c.toNat + 32) else c

def jsLower (l : List Char) : List Char := l.map jsLowerChar

/-- The smart-quote class `[‘’“”]` of `normalizeText`. -/
def isSmartQuote (c : Char) : Bool :=
  c.toNat == 8216 || c.toNat == 8217 || c.toNat == 8220 || c.toNat == 8221

/-- The class `[a-z0-9\s,&\-']` kept by `normalizeText`
(every other character is replaced by a space). -/
def isKeepCode (n : Nat) : Bool :=
  (97 ≤ n && n ≤ 122) || (48 ≤ n && n ≤ 57) || isWsCode n ||
  n == 44 || n == 38 || n == 45 || n == 39

/-- One character through the three char-to-char replacements of
`normalizeText`: lowercase, then smart quote to `'`, then anything outside
`[a-z0-9\s,&\-']` to a space. -/
def normChar (c : Char) : Char :=
  let c1 := jsLowerChar c
  let c2 := if isSmartQuote c1 then Char.ofNat 39 else c1
  if isKeepCode c2.toNat then c2 else ' '

/-- `.replace(/\s+/g, " ")`: each maximal whitespace run becomes one space.
The boolean argument records whether the previous character was whitespace
(in which case the current run has already emitted its space). -/
def collapseAux : Bool → List Char → List Char
  | _, [] => []
  | prevWs, c :: rest =>
    if wsB c then
      if prevWs then collapseAux true rest else ' ' :: collapseAux true rest
    else c :: collapseAux false rest

/-- Remove all trailing whitespace characters. -/
def trimRight : List Char → List Char
  | [] => []
  | c :: rest =>
    let r := trimRight rest
    if r.isEmpty && wsB c then [] else c :: r

/-- `String.prototype.trim`. -/
def jsTrim (l : List Char) : List Char := trimRight (l.dropWhile (fun c => wsB c))

/-- `normalizeText` from `src/lib/journal.ts`:
lowercase, smart quotes to `'`, `[^a-z0-9\s,&\-']` to spaces,
collapse whitespace runs, trim. -/
def normalizeText (s : List Char) : List Char :=
  jsTrim (collapseAux false (s.map normChar))

def normalizeTextS (s : String) : String := String.mk (normalizeText s.data)

/-! ### Shape of normalized text (towards idempotence, claim C9) -/

/-- Characters that can appear in the output of `normalizeText`:
a space, or a non-whitespace character of the kept class. -/
def outChar (c : Char) : Prop :=
  c = ' ' ∨ (isKeepCode c.toNat = true ∧ wsB c = false)

/-- No two adjacent whitespace characters. -/
def noDbl : List Char → Bool
  | a :: b :: t => (!(wsB a && wsB b)) && noDbl (b :: t)
  | _ => true

def headNotWs : List Char → Bool
  | [] => true
  | c :: _ => !wsB c

def lastNotWs : List Char → Bool
  | [] => true
  | [c] => !wsB c
  | _ :: b :: t => lastNotWs (b :: t)

def onlySpace (l : List Char) : Prop := ∀ c ∈ l, wsB c = true → c = ' '

/-- `stem` from `src/lib/journal.ts`: heuristic suffix stripping, first
matching rule wins: `-ies → -y` (length > 4), `-es` dropped (length > 3),
`-s` dropped (length > 2), otherwise unchanged.  `word.slice(0, -n)` is
`take (length - n)`. -/
def stem (word : List Char) : List Char :=
  if word = [] then word
  else if 4 < word.length ∧ "ies".data.isSuffixOf word then
    word.take (word.length - 3) ++ ['y']
  else if 3 < word.length ∧ "es".data.isSuffixOf word then
    word.take (word.length - 2)
  else if 2 < word.length ∧ "s".data.isSuffixOf word then
    word.take (word.length - 1)
  else word

def stemS (s : String) : String := String.mk (stem s.data)

/-- The `STOPWORDS` set of `src/lib/journal.ts`. -/
def STOPWORDS : List (List Char) :=
  ["the", "a", "an", "and", "or", "to", "of", "in", "on", "at", "for", "with",
   "that", "this", "it", "is", "are", "be", "i", "you", "we", "they", "me",
   "my", "your", "our", "have", "has", "had", "will", "please", "next",
   "time", "from", "as", "by", "about", "so", "but"].map String.data

/-- The `COMMON_VERBS` set of `src/lib/journal.ts`. -/
def COMMON_VERBS : List (List Char) :=
  ["add", "buy", "bought", "buying", "remember", "remind", "shopping",
   "list", "show", "need"].map String.data

def isTokSep (c : Char) : Bool := wsB c || c == ','

/-- JS `s.split(/[\s,]+/)`, embedded as a single-character split (which
yields an empty-string element per extra separator in a run).  After the
`filter(Boolean)` that every caller in `journal.ts` applies, this agrees
with the run-based JS split. -/
def splitSep : List Char → List (List Char)
  | [] => [[]]
  | c :: rest =>
    match splitSep rest with
    | [] => [[c]]
    | t :: ts => if isTokSep c then [] :: t :: ts else (c :: t) :: ts

/-- Push `c` at the end unless already present: one step of the
first-occurrence de-duplication loops in `journal.ts`
(`if (!seen.has(k)) out.push(k)` / `Array.from(new Set(items))`). -/
def insertNew (acc : List (List Char)) (c : List Char) : List (List Char) :=
  if c ∈ acc then acc else acc ++ [c]

/-- First-occurrence-preserving de-duplication. -/
def dedupF (l : List (List Char)) : List (List Char) := l.foldl insertNew []

/-- `extractKeywords` from `src/lib/journal.ts`: normalize, split on
whitespace/commas, drop empty tokens, trim, drop stopwords and common
verbs, stem, keep tokens of length > 1, de-duplicate keeping first
occurrences. -/
def extractKeywords (text : List Char) : List (List Char) :=
  let s := normalizeText text
  let tokens := (splitSep s).filter (fun t => !t.isEmpty)
  let kept := (((tokens.map jsTrim).filter
      (fun t => !STOPWORDS.contains t && !COMMON_VERBS.contains t)).map stem).filter
      (fun t => 1 < t.length)
  dedupF kept

/-- Decimal rendering of a natural number: the model of JS `String(n)` on
the non-negative integers produced by `Date.now()`.  Fuel-based structural
recursion (fuel `n + 1` is always enough) so the kernel can evaluate it. -/
def natToCharsAux : Nat → Nat → List Char
  | 0, _ => []
  | fuel + 1, n =>
    if n < 10 then [Char.ofNat (48 + n)]
    else natToCharsAux fuel (n / 10) ++ [Char.ofNat (48 + n % 10)]

def natToChars (n : Nat) : List Char := natToCharsAux (n + 1) n

/-- The `Entry` record of `src/lib/journal.ts`.  The optional fields
`tags`, `keywords`, `items` are always set by `addEntry` — the only
creator of entries — so they are modelled as total. -/
structure Entry where
  id : List Char
  content : List Char
  tags : List (List Char)
  keywords : List (List Char)
  items : List (List Char)
  createdAt : List Char
deriving DecidableEq

/-- `addEntry` from `src/lib/journal.ts`.  The ambient clock readings are
passed explicitly: `nowMs` is what `Date.now()` returns and `nowIso` what
`new Date().toISOString()` returns at this call (so `id = String(nowMs)`).
Returns the new entry together with the updated store;
`entries.unshift(e)` prepends. -/
def addEntry (nowMs : Nat) (nowIso : List Char) (content : List Char)
    (tags : List (List Char)) (items : List (List Char))
    (st : List Entry) : Entry × List Entry :=
  let e : Entry :=
    { id := natToChars nowMs
      content := content
      tags := tags
      keywords := extractKeywords content
      items := items.map jsLower
      createdAt := nowIso }
  (e, e :: st)

/-- `allEntries` from `src/lib/journal.ts`: returns the store's array. -/
def allEntries (st : List Entry) : List Entry := st

/-! ### Word-boundary matching (`\b`), for `looksLikeAddIntent` (C6) -/

/-- ECMAScript word character: `\w = [A-Za-z0-9_]`. -/
def isWordChar (c : Char) : Bool :=
  (65 ≤ c.toNat && c.toNat ≤ 90) || (97 ≤ c.toNat && c.toNat ≤ 122) ||
  (48 ≤ c.toNat && c.toNat ≤ 57) || c.toNat == 95

def headNotWord : List Char → Bool
  | [] => true
  | c :: _ => !isWordChar c

def lastNotWord : List Char → Bool
  | [] => true
  | [c] => !isWordChar c
  | _ :: b :: t => lastNotWord (b :: t)

/-- Left-boundary check for a match whose preceding context is `pre`,
where `pw` says whether the character just before `pre` (outside the
scanned suffix) is a word character. -/
def boundaryLeft (pw : Bool) (pre : List Char) : Bool :=
  match pre with
  | [] => !pw
  | _ :: _ => lastNotWord pre

/-- Scan for an occurrence of the literal `w` flanked by word boundaries.
Every alternative in both groups of `looksLikeAddIntent` starts and ends
with a word character, so for them `\b` before the match means "previous
character, if any, is not a word character", and `\b` after means "next
character, if any, is not a word character".  `prevWord` records whether
the character before the current position is a word character. -/
def cwAux (w : List Char) : Bool → List Char → Bool
  | _, [] => false
  | prevWord, c :: rest =>
    (!prevWord && w.isPrefixOf (c :: rest) &&
      headNotWord ((c :: rest).drop w.length)) ||
    cwAux w (isWordChar c) rest

/-- `\b(w)\b` matches somewhere in `l` (JS `RegExp.test`). -/
def containsWordB (w : List Char) (l : List Char) : Bool := cwAux w false l

/-- The group `\b(add|put|buy|need|remember|remind|get)\b`. -/
def addVerbGroup : List (List Char) :=
  ["add", "put", "buy", "need", "remember", "remind", "get"].map String.data

/-- The group `\b(list|shopping|grocery|to-?do|todo|task|supermarket)\b`,
with the `to-?do` alternative expanded into its two literals. -/
def listNounGroup : List (List Char) :=
  ["list", "shopping", "grocery", "to-do", "todo", "task", "supermarket"].map String.data

/-- `looksLikeAddIntent` from `src/app/api/chat/route.ts`: lowercase the
text, then require a word-boundary match from the action-verb group and
one from the list-noun group (`if (!text) return false` first). -/
def looksLikeAddIntent (text : List Char) : Bool :=
  if text.isEmpty then false
  else
    (addVerbGroup.any (fun w => containsWordB w (jsLower text))) &&
    (listNounGroup.any (fun w => containsWordB w (jsLower text)))

/-- Spec side of C6: `w` occurs in `l` delimited by word boundaries. -/
def occursAsWord (w l : List Char) : Prop :=
  ∃ pre post, l = pre ++ w ++ post ∧ lastNotWord pre = true ∧
    headNotWord post = true

/-! ### Fallback item extractor (`fallbackExtractItems`, primary variant)

The three phrase patterns are only ever applied to `normalizeText` output
(lowercase, no line terminators, whitespace collapsed to single spaces and
trimmed).  On that subject language, JavaScript's leftmost-first
backtracking semantics reduce to the scans below: alternatives are tried
in source order at each position from the left; `\s+`/`\s*` take the
maximal whitespace run (nothing after them can start with whitespace, or
— for the final `(.+)$` — they give back just enough to leave one
character); the lazy `(.*?)` grows one character at a time until its
terminator (or end of input) matches. -/

def headWs : List Char → Bool
  | [] => false
  | c :: _ => wsB c

/-- Verb alternatives of pattern 1, in alternation order:
`(?:add|put|buy|need|remember|remind me to|don't forget to|note to)`. -/
def p1Verbs : List (List Char) :=
  ["add", "put", "buy", "need", "remember", "remind me to",
   "don't forget to", "note to"].map String.data

/-- Stop words of pattern 1's terminator
`(?:\s+(?:to|in|on|at|for|my|the|from)\b|$)`. -/
def p1Stops : List (List Char) :=
  ["to", "in", "on", "at", "for", "my", "the", "from"].map String.data

/-- Does `\s+(?:to|in|on|at|for|my|the|from)\b` match at the head of `l`? -/
def p1TermHere (l : List Char) : Bool :=
  headWs l &&
  (let q := l.dropWhile (fun c => wsB c)
   p1Stops.any (fun w => w.isPrefixOf q && headNotWord (q.drop w.length)))

/-- The lazy capture `(.*?)`: the shortest prefix after which the
terminator matches; the `$` alternative makes the end of input terminate
the capture. -/
def p1Capture : List Char → List Char
  | [] => []
  | c :: rest => if p1TermHere (c :: rest) then [] else c :: p1Capture rest

/-- Try pattern 1 at the current position: the first verb alternative
that is a literal prefix here and is followed by whitespace (`\s+`; if
not, this alternative fails and the next one is tried).  The capture
starts after the maximal whitespace run. -/
def p1At (l : List Char) : Option (List Char) :=
  p1Verbs.findSome? (fun v =>
    if v.isPrefixOf l && headWs (l.drop v.length) then
      some (p1Capture ((l.drop v.length).dropWhile (fun c => wsB c)))
    else none)

/-- Leftmost match: try `f` at every position from the left. -/
def scanFor (f : List Char → Option (List Char)) : List Char → Option (List Char)
  | [] => none
  | c :: rest =>
    match f (c :: rest) with
    | some cap => some cap
    | none => scanFor f rest

/-- Alternatives of pattern 2
`(?:shopping list:|shopping:|to-?do list:|todo:)\s*(.+)$` (the `to-?do`
branch expanded).  `normalizeText` removes `:`… so this pattern can never
fire on the function's actual subjects, but it is embedded faithfully. -/
def p2Alts : List (List Char) :=
  ["shopping list:", "shopping:", "to-do list:", "todo list:", "todo:"].map String.data

/-- Try pattern 2 at the current position: after the literal, `\s*` is
greedy but gives back enough for `(.+)` to take at least one character. -/
def p2At (l : List Char) : Option (List Char) :=
  p2Alts.findSome? (fun v =>
    if v.isPrefixOf l then
      let after := l.drop v.length
      if after.isEmpty then none
      else
        let run := after.length - (after.dropWhile (fun c => wsB c)).length
        some (after.drop (min run (after.length - 1)))
    else none)

/-- Alternatives of pattern 3 `(?:also|and also|plus)\s+(.+)$`. -/
def p3Alts : List (List Char) := ["also", "and also", "plus"].map String.data

/-- Try pattern 3 at the current position: the literal must be followed
by whitespace (`\s+`), which is greedy but leaves at least one character
for `(.+)`. -/
def p3At (l : List Char) : Option (List Char) :=
  p3Alts.findSome? (fun v =>
    if v.isPrefixOf l && headWs (l.drop v.length) then
      let after := l.drop v.length
      let run := after.length - (after.dropWhile (fun c => wsB c)).length
      let r := min run (after.length - 1)
      if 1 ≤ r then some (after.drop r) else none
    else none)

/-- Noise alternatives of the chunk cleanup
`\b(to-?do|todo|shopping|shopping list|to-?do list|my|the|list)\b`, in
alternation order with each `-?` expanded greedily (`-` first). -/
def noiseAlts : List (List Char) :=
  ["to-do", "todo", "todo", "shopping", "shopping list", "to-do list",
   "todo list", "my", "the", "list"].map String.data

/-- First noise alternative matching at the head of `l`, with word
boundaries on both sides (`prevWord`: whether the previous character of
the subject is a word character); returns its length. -/
def noiseAt (prevWord : Bool) (l : List Char) : Option Nat :=
  noiseAlts.findSome? (fun v =>
    if !prevWord && v.isPrefixOf l && headNotWord (l.drop v.length) then
      some v.length
    else none)

/-- `.replace(/\b(…)\b/gi, " ")`: global left-to-right replacement,
resuming right after each match.  Every noise alternative ends in a word
character, so after a replacement the previous-character flag is `true`.
Fuel-based recursion (each step consumes at least one character). -/
def replaceNoiseAux : Nat → Bool → List Char → List Char
  | 0, _, _ => []
  | _ + 1, _, [] => []
  | fuel + 1, prevWord, c :: rest =>
    match noiseAt prevWord (c :: rest) with
    | some n => ' ' :: replaceNoiseAux fuel true ((c :: rest).drop n)
    | none => c :: replaceNoiseAux fuel (isWordChar c) rest

def replaceNoise (l : List Char) : List Char := replaceNoiseAux l.length false l

/-- The class removed by `.replace(/['"`]/g, "")`. -/
def isQuoteChar (c : Char) : Bool :=
  c.toNat == 39 || c.toNat == 34 || c.toNat == 96

def removeQuotes (l : List Char) : List Char := l.filter (fun c => !isQuoteChar c)

/-- Chunk cleanup: strip noise words, remove quote characters, collapse
whitespace runs, trim. -/
def cleanChunk (l : List Char) : List Char :=
  jsTrim (collapseAux false (removeQuotes (replaceNoise l)))

/-- Separator of `chunk.split(/\s*,\s*|\s+and\s+/)` matching at the head
of `l`: its length.  The whitespace runs are maximal — a shorter run would
put a whitespace character where `,` or `and` must start. -/
def chunkSepAt (l : List Char) : Option Nat :=
  let q := l.dropWhile (fun c => wsB c)
  let r1 := l.length - q.length
  match q with
  | ',' :: q2 => some (r1 + 1 + (q2.length - (q2.dropWhile (fun c => wsB c)).length))
  | _ =>
    if 1 ≤ r1 && "and".data.isPrefixOf q && headWs (q.drop 3) then
      let q3 := q.drop 3
      some (r1 + 3 + (q3.length - (q3.dropWhile (fun c => wsB c)).length))
    else none

/-- `chunk.split(/\s*,\s*|\s+and\s+/)`, with the empty pieces JS produces
when separators touch the ends.  Fuel-based (a separator spans several
characters). -/
def splitChunkAux : Nat → List Char → List Char → List (List Char)
  | 0, cur, _ => [cur]
  | _ + 1, cur, [] => [cur]
  | fuel + 1, cur, c :: rest =>
    match chunkSepAt (c :: rest) with
    | some n => cur :: splitChunkAux fuel [] ((c :: rest).drop n)
    | none => splitChunkAux fuel (cur ++ [c]) rest

def splitChunk (l : List Char) : List (List Char) := splitChunkAux l.length [] l

/-- The class kept by the per-part strip `.replace(/[^a-z0-9\s\-']/gi, "")`. -/
def isPartKeep (c : Char) : Bool :=
  (97 ≤ c.toNat && c.toNat ≤ 122) || (65 ≤ c.toNat && c.toNat ≤ 90) ||
  (48 ≤ c.toNat && c.toNat ≤ 57) || wsB c || c.toNat == 45 || c.toNat == 39

def stripPunct (l : List Char) : List Char := l.filter isPartKeep

/-- The class kept by the token strip `.replace(/[^a-z0-9\-']/g, "")` of
the conservative scan. -/
def isTokKeep (c : Char) : Bool :=
  (97 ≤ c.toNat && c.toNat ≤ 122) || (48 ≤ c.toNat && c.toNat ≤ 57) ||
  c.toNat == 45 || c.toNat == 39

def stripTok (l : List Char) : List Char := l.filter isTokKeep

/-- Process a matched pattern's captured chunk into candidate items:
clean, split on commas / `" and "`, trim parts and drop empties, strip
stray punctuation and trim, stem, lowercase, keep parts of length > 1
that are neither common verbs nor stopwords. -/
def chunkItems (cap : List Char) : List (List Char) :=
  let chunk := cleanChunk cap
  let parts := ((splitChunk chunk).map jsTrim).filter (fun p => !p.isEmpty)
  ((((parts.map (fun p => jsTrim (stripPunct p))).map stem).map jsLower).filter
    (fun p => 1 < p.length && !COMMON_VERBS.contains p && !STOPWORDS.contains p))

/-- `if (m && m[1]) { …; if (items.length > 0) return Array.from(new Set(items)); }`:
a pattern contributes only if it matched with a nonempty capture and the
processed chunk yields at least one surviving item. -/
def patItems (cap? : Option (List Char)) : Option (List (List Char)) :=
  match cap? with
  | none => none
  | some cap =>
    if cap.isEmpty then none
    else
      let items := chunkItems cap
      if items.isEmpty then none else some (dedupF items)

/-- The conservative-scan uniqueness loop with its
`if (uniq.length >= 4) break` cap. -/
def uniqCap4 : List (List Char) → List (List Char) → List (List Char)
  | acc, [] => acc
  | acc, c :: rest =>
    let acc2 := if c ∈ acc then acc else acc ++ [c]
    if 4 ≤ acc2.length then acc2 else uniqCap4 acc2 rest

/-- The conservative token scan used when no pattern produced items. -/
def conservativeItems (s : List Char) : List (List Char) :=
  let tokens := ((splitSep s).map jsTrim).filter (fun t => !t.isEmpty)
  let candidates := ((tokens.map stripTok).map stem).filter
    (fun t => 2 < t.length && !COMMON_VERBS.contains t && !STOPWORDS.contains t)
  (uniqCap4 [] candidates).map jsLower

/-- `fallbackExtractItems` from `src/lib/journal.ts` (the primary
definition; the file's second, related-document copy uses different
patterns and is not the exported implementation).  Normalize, try the
three phrase patterns in order, fall back to the conservative token
scan. -/
def fallbackExtractItems (content : List Char) : List (List Char) :=
  let s := normalizeText content
  match patItems (scanFor p1At s) with
  | some items => items
  | none =>
    match patItems (scanFor p2At s) with
    | some items => items
    | none =>
      match patItems (scanFor p3At s) with
      | some items => items
      | none => conservativeItems s

/-- `it.trim().toLowerCase()` in `getShoppingItemsForResults`. -/
def cleanItem (it : List Char) : List Char := jsLower (jsTrim it)

/-- One push of the aggregation loop of `getShoppingItemsForResults`:
keep the cleaned candidate if nonempty and not yet collected. -/
def pushClean (acc : List (List Char)) (it : List Char) : List (List Char) :=
  let c := cleanItem it
  if !c.isEmpty && !acc.contains c then acc ++ [c] else acc

/-- `getShoppingItemsForResults` from `src/lib/journal.ts` (primary
definition): for each result entry in order, prefer its structured
`items` when nonempty, else run the fallback extractor on its content;
trim/lowercase each candidate and append it if nonempty and new. -/
def getShoppingItemsForResults (results : List Entry) : List (List Char) :=
  results.foldl (fun acc r =>
    if !r.items.isEmpty then r.items.foldl pushClean acc
    else (fallbackExtractItems r.content).foldl pushClean acc) []

/-- Spec side of C10: the per-entry item source — cached `items` when
nonempty, otherwise the fallback extraction from the content. -/
def entryItemSource (r : Entry) : List (List Char) :=
  if r.items = [] then fallbackExtractItems r.content else r.items

theorem noDbl_tail (c : Char) (l : List Char) (h : noDbl (c :: l) = true) :
    noDbl l = true := by
  cases l with
  | nil => rfl
  | cons b t => simp [noDbl] at h ⊢; exact h.2

theorem noDbl_cons (c : Char) (l : List Char) (hh : headNotWs l = true)
    (hn : noDbl l = true) : noDbl (c :: l) = true := by
  cases l with
  | nil => rfl
  | cons b t =>
    simp [headNotWs] at hh
    simp [noDbl, hh, hn]

theorem noDbl_cons_notWs (c : Char) (l : List Char) (hc : wsB c = false)
    (hn : noDbl l = true) : noDbl (c :: l) = true := by
  cases l with
  | nil => rfl
  | cons b t => simp [noDbl, hc, hn]

theorem mem_collapseAux (l : List Char) :
    ∀ (b : Bool) (c : Char), c ∈ collapseAux b l →
      c = ' ' ∨ (c ∈ l ∧ wsB c = false) := by
  induction l with
  | nil => intro b c h; simp [collapseAux] at h
  | cons a rest ih =>
    intro b c h
    by_cases hw : wsB a = true
    · cases b with
      | true =>
        simp only [collapseAux, hw, if_true] at h
        rcases ih true c h with h1 | ⟨h1, h2⟩
        · exact Or.inl h1
        · exact Or.inr ⟨List.mem_cons_of_mem _ h1, h2⟩
      | false =>
        simp only [collapseAux, hw, if_true] at h
        rcases List.mem_cons.mp h with rfl | h'
        · exact Or.inl rfl
        · rcases ih true c h' with h1 | ⟨h1, h2⟩
          · exact Or.inl h1
          · exact Or.inr ⟨List.mem_cons_of_mem _ h1, h2⟩
    · simp only [collapseAux, hw, Bool.false_eq_true, if_false] at h
      rcases List.mem_cons.mp h with rfl | h'
      · exact Or.inr ⟨List.mem_cons_self _ _, Bool.eq_false_iff.mpr hw⟩
      · rcases ih false c h' with h1 | ⟨h1, h2⟩
        · exact Or.inl h1
        · exact Or.inr ⟨List.mem_cons_of_mem _ h1, h2⟩

theorem headNotWs_collapseAux_true (l : List Char) :
    headNotWs (collapseAux true l) = true := by
  induction l with
  | nil => rfl
  | cons a rest ih =>
    by_cases hw : wsB a = true
    · simpa [collapseAux, hw] using ih
    · simp [collapseAux, hw, headNotWs]

theorem noDbl_collapseAux (l : List Char) :
    ∀ b, noDbl (collapseAux b l) = true := by
  induction l with
  | nil => intro b; rfl
  | cons a rest ih =>
    intro b
    by_cases hw : wsB a = true
    · cases b with
      | true => simpa [collapseAux, hw] using ih true
      | false =>
        simp only [collapseAux, hw, if_true]
        exact noDbl_cons _ _ (headNotWs_collapseAux_true rest) (ih true)
    · simp only [collapseAux, hw, Bool.false_eq_true, if_false]
      exact noDbl_cons_notWs _ _ (Bool.eq_false_iff.mpr hw) (ih false)

theorem mem_dropWhileWs (l : List Char) (c : Char)
    (h : c ∈ l.dropWhile (fun c => wsB c)) : c ∈ l :=
  (List.dropWhile_sublist _).mem h

theorem headNotWs_dropWhileWs (l : List Char) :
    headNotWs (l.dropWhile (fun c => wsB c)) = true := by
  induction l with
  | nil => rfl
  | cons a rest ih =>
    by_cases hw : wsB a = true
    · simpa [List.dropWhile_cons, hw] using ih
    · simp [List.dropWhile_cons, hw, headNotWs]

theorem noDbl_dropWhileWs (l : List Char) (h : noDbl l = true) :
    noDbl (l.dropWhile (fun c => wsB c)) = true := by
  induction l with
  | nil => exact h
  | cons a rest ih =>
    by_cases hw : wsB a = true
    · simpa [List.dropWhile_cons, hw] using ih (noDbl_tail _ _ h)
    · simpa [List.dropWhile_cons, hw] using h

theorem mem_trimRight (l : List Char) (c : Char) (h : c ∈ trimRight l) : c ∈ l := by
  induction l with
  | nil => simp [trimRight] at h
  | cons a rest ih =>
    simp only [trimRight] at h
    split at h
    · simp at h
    · rcases List.mem_cons.mp h with rfl | h'
      · exact List.mem_cons_self _ _
      · exact List.mem_cons_of_mem _ (ih h')

/-- `trimRight` keeps the head of the list when it returns a nonempty list. -/
theorem trimRight_cases (a : Char) (rest : List Char) :
    trimRight (a :: rest) = [] ∨ trimRight (a :: rest) = a :: trimRight rest := by
  simp only [trimRight]
  split
  · exact Or.inl rfl
  · exact Or.inr rfl

theorem headNotWs_trimRight (l : List Char) (h : headNotWs l = true) :
    headNotWs (trimRight l) = true := by
  cases l with
  | nil => rfl
  | cons a rest =>
    rcases trimRight_cases a rest with h' | h' <;> rw [h']
    · rfl
    · exact h

theorem noDbl_trimRight (l : List Char) (h : noDbl l = true) :
    noDbl (trimRight l) = true := by
  induction l with
  | nil => exact h
  | cons a rest ih =>
    rcases trimRight_cases a rest with h' | h' <;> rw [h']
    · rfl
    · cases rest with
      | nil => simp [trimRight, noDbl]
      | cons b t =>
        rcases trimRight_cases b t with h'' | h'' <;> rw [h'']
        · exact noDbl_cons _ _ rfl rfl
        · have hpair : (!(wsB a && wsB b)) = true := by
            simp [noDbl] at h; simp [h.1]
          have htail : noDbl (trimRight (b :: t)) = true := ih (noDbl_tail _ _ h)
          rw [h''] at htail
          cases hb : wsB b with
          | false =>
            exact noDbl_cons _ _ (by simp [headNotWs, hb]) (by rw [← h'']; exact ih (noDbl_tail _ _ h))
          | true =>
            have ha : wsB a = false := by
              cases ha : wsB a with
              | false => rfl
              | true => rw [ha, hb] at hpair; simp at hpair
            exact noDbl_cons_notWs _ _ ha (by rw [← h'']; exact ih (noDbl_tail _ _ h))

theorem lastNotWs_trimRight (l : List Char) : lastNotWs (trimRight l) = true := by
  induction l with
  | nil => rfl
  | cons a rest ih =>
    rcases trimRight_cases a rest with h' | h' <;> rw [h']
    · rfl
    · cases htr : trimRight rest with
      | nil =>
        simp only [trimRight, htr, List.isEmpty_nil, Bool.true_and] at h'
        split at h'
        · simp at h'
        · rename_i hwa
          simpa [lastNotWs] using Bool.eq_false_iff.mpr hwa
      | cons d t =>
        have : lastNotWs (a :: d :: t) = lastNotWs (d :: t) := rfl
        rw [this, ← htr]
        exact ih

/-! ### Fixed points of each stage -/

theorem collapseAux_true_eq_false (l : List Char) (h : headNotWs l = true) :
    collapseAux true l = collapseAux false l := by
  cases l with
  | nil => rfl
  | cons c rest =>
    simp [headNotWs] at h
    simp [collapseAux, h]

theorem collapseAux_eq_self (l : List Char) (hs : onlySpace l) (hn : noDbl l = true) :
    collapseAux false l = l := by
  induction l with
  | nil => rfl
  | cons c rest ih =>
    have hrest : onlySpace rest := fun d hd => hs d (List.mem_cons_of_mem _ hd)
    by_cases hw : wsB c = true
    · have hc : c = ' ' := hs c (List.mem_cons_self _ _) hw
      have hhead : headNotWs rest = true := by
        cases rest with
        | nil => rfl
        | cons b t =>
          simp [noDbl, hw] at hn
          simp [headNotWs, hn.1]
      simp only [collapseAux, hw, if_true]
      rw [collapseAux_true_eq_false rest hhead, ih hrest (noDbl_tail _ _ hn), hc]
      simp
    · simp only [collapseAux, hw, Bool.false_eq_true, if_false]
      rw [ih hrest (noDbl_tail _ _ hn)]

theorem dropWhileWs_eq_self (l : List Char) (h : headNotWs l = true) :
    l.dropWhile (fun c => wsB c) = l := by
  cases l with
  | nil => rfl
  | cons c rest =>
    simp [headNotWs] at h
    simp [List.dropWhile_cons, h]

theorem trimRight_eq_self (l : List Char) (h : lastNotWs l = true) :
    trimRight l = l := by
  induction l with
  | nil => rfl
  | cons a rest ih =>
    cases rest with
    | nil =>
      simp [lastNotWs] at h
      simp [trimRight, h]
    | cons b t =>
      have : lastNotWs (a :: b :: t) = lastNotWs (b :: t) := rfl
      rw [this] at h
      have htr : trimRight (b :: t) = b :: t := ih h
      have hdef : trimRight (a :: b :: t) =
          if (trimRight (b :: t)).isEmpty && wsB a then [] else a :: trimRight (b :: t) := rfl
      rw [hdef, htr]
      simp

theorem normChar_out (c : Char) :
    normChar c = ' ' ∨ isKeepCode (normChar c).toNat = true := by
  unfold normChar
  dsimp only
  split
  all_goals split
  all_goals first
    | (rename_i h; exact Or.inr h)
    | exact Or.inl rfl

theorem normChar_eq_self (c : Char) (h : outChar c) : normChar c = c := by
  rcases h with rfl | ⟨hk, hw⟩
  · decide
  · have hk0 := hk
    simp only [isKeepCode, isWsCode, Bool.or_eq_true, Bool.and_eq_true,
      decide_eq_true_eq, beq_iff_eq] at hk
    simp only [wsB, isWsCode, Bool.or_eq_true, Bool.and_eq_true,
      decide_eq_true_eq, beq_iff_eq] at hw
    have hu : isUpperCode c.toNat = false := by
      simp only [isUpperCode, Bool.and_eq_true, decide_eq_true_eq]
      simp only [Bool.and_eq_false_iff, decide_eq_false_iff_not]
      omega
    have hsq : isSmartQuote c = false := by
      simp only [isSmartQuote, Bool.or_eq_true, beq_iff_eq]
      simp only [Bool.or_eq_false_iff, beq_eq_false_iff_ne, ne_eq]
      omega
    simp [normChar, jsLowerChar, hu, hsq, hk0]

theorem map_normChar_eq_self (l : List Char) (h : ∀ c ∈ l, outChar c) :
    l.map normChar = l := by
  induction l with
  | nil => rfl
  | cons a rest ih =>
    rw [List.map_cons, normChar_eq_self a (h a (List.mem_cons_self _ _)),
      ih (fun c hc => h c (List.mem_cons_of_mem _ hc))]

theorem outChar_mem_normalizeText (s : List Char) (c : Char)
    (h : c ∈ normalizeText s) : outChar c := by
  unfold normalizeText jsTrim at h
  have h1 := mem_dropWhileWs _ _ (mem_trimRight _ _ h)
  rcases mem_collapseAux _ _ _ h1 with rfl | ⟨h2, h3⟩
  · exact Or.inl rfl
  · rcases List.mem_map.mp h2 with ⟨c0, _, rfl⟩
    rcases normChar_out c0 with h4 | h4
    · exact Or.inl h4
    · exact Or.inr ⟨h4, h3⟩

theorem normalizeText_idem (s : List Char) :
    normalizeText (normalizeText s) = normalizeText s := by
  set y := normalizeText s with hy
  have hout : ∀ c ∈ y, outChar c := fun c hc => outChar_mem_normalizeText s c hc
  have hnd : noDbl y = true := by
    rw [hy]; unfold normalizeText jsTrim
    exact noDbl_trimRight _ (noDbl_dropWhileWs _ (noDbl_collapseAux _ false))
  have hos : onlySpace y := by
    intro c hc hw
    rcases hout c hc with rfl | ⟨_, h2⟩
    · rfl
    · rw [hw] at h2; cases h2
  have hh : headNotWs y = true := by
    rw [hy]; unfold normalizeText jsTrim
    exact headNotWs_trimRight _ (headNotWs_dropWhileWs _)
  have hl : lastNotWs y = true := by
    rw [hy]; unfold normalizeText jsTrim
    exact lastNotWs_trimRight _
  show jsTrim (collapseAux false (y.map normChar)) = y
  rw [map_normChar_eq_self y hout, collapseAux_eq_self y hos hnd]
  unfold jsTrim
  rw [dropWhileWs_eq_self y hh, trimRight_eq_self y hl]

/-- C9: the normalizer is idempotent: for every string `x`,
`normalizeText (normalizeText x) = normalizeText x`. -/
theorem claim_C9_normalizeText_idempotent (x : String) :
    normalizeTextS (normalizeTextS x) = normalizeTextS x :=
  congrArg String.mk (normalizeText_idem x.data)

theorem claim_C9_witness :
    normalizeTextS (normalizeTextS "  Don’t STOP: now!  ") = normalizeTextS "  Don’t STOP: now!  " :=
  claim_C9_normalizeText_idempotent "  Don’t STOP: now!  "

/-! ### C7: stemmer rule priority -/

/-- C7: the stemmer applies its suffix rules in priority order with first
match winning — length > 4 ending `ies` drops `ies` and appends `y`; else
length > 3 ending `es` drops `es`; else length > 2 ending `s` drops `s`;
else unchanged — and in particular `stem "cookies" = "cooky"`,
`stem "boxes" = "box"`, `stem "cats" = "cat"`, `stem "bus" = "bu"`. -/
theorem claim_C7_stem_priority :
    (stemS "cookies" = "cooky" ∧ stemS "boxes" = "box" ∧
     stemS "cats" = "cat" ∧ stemS "bus" = "bu") ∧
    (∀ w : List Char, 4 < w.length → "ies".data.isSuffixOf w = true →
      stem w = w.take (w.length - 3) ++ ['y']) ∧
    (∀ w : List Char, ¬(4 < w.length ∧ "ies".data.isSuffixOf w = true) →
      3 < w.length → "es".data.isSuffixOf w = true →
      stem w = w.take (w.length - 2)) ∧
    (∀ w : List Char, ¬(4 < w.length ∧ "ies".data.isSuffixOf w = true) →
      ¬(3 < w.length ∧ "es".data.isSuffixOf w = true) →
      2 < w.length → "s".data.isSuffixOf w = true →
      stem w = w.take (w.length - 1)) ∧
    (∀ w : List Char, ¬(4 < w.length ∧ "ies".data.isSuffixOf w = true) →
      ¬(3 < w.length ∧ "es".data.isSuffixOf w = true) →
      ¬(2 < w.length ∧ "s".data.isSuffixOf w = true) → stem w = w) := by
  refine ⟨⟨by decide, by decide, by decide, by decide⟩, ?_, ?_, ?_, ?_⟩
  · intro w h1 h2
    have hne : ¬(w = []) := by rintro rfl; simp at h1
    unfold stem
    rw [if_neg hne, if_pos ⟨h1, h2⟩]
  · intro w h0 h1 h2
    have hne : ¬(w = []) := by rintro rfl; simp at h1
    unfold stem
    rw [if_neg hne, if_neg h0, if_pos ⟨h1, h2⟩]
  · intro w h0 h0' h1 h2
    have hne : ¬(w = []) := by rintro rfl; simp at h1
    unfold stem
    rw [if_neg hne, if_neg h0, if_neg h0', if_pos ⟨h1, h2⟩]
  · intro w h0 h0' h0''
    by_cases hne : w = []
    · subst hne; rfl
    · unfold stem
      rw [if_neg hne, if_neg h0, if_neg h0', if_neg h0'']

theorem claim_C7_witness :
    stem "berries".data = "berry".data ∧ stem "dishes".data = "dish".data ∧
    stem "dogs".data = "dog".data ∧ stem "go".data = "go".data :=
  ⟨claim_C7_stem_priority.2.1 "berries".data (by decide) (by decide),
   claim_C7_stem_priority.2.2.1 "dishes".data (by decide) (by decide) (by decide),
   claim_C7_stem_priority.2.2.2.1 "dogs".data (by decide) (by decide) (by decide) (by decide),
   claim_C7_stem_priority.2.2.2.2 "go".data (by decide) (by decide) (by decide)⟩

/-! ### C1: what `extractKeywords` can emit -/

theorem mem_foldl_insertNew (l : List (List Char)) :
    ∀ acc x, x ∈ l.foldl insertNew acc → x ∈ acc ∨ x ∈ l := by
  induction l with
  | nil => intro acc x h; exact Or.inl h
  | cons a rest ih =>
    intro acc x h
    rcases ih _ x h with h' | h'
    · unfold insertNew at h'
      split at h'
      · exact Or.inl h'
      · rcases List.mem_append.mp h' with h'' | h''
        · exact Or.inl h''
        · simp at h''; subst h''; exact Or.inr (List.mem_cons_self _ _)
    · exact Or.inr (List.mem_cons_of_mem _ h')

theorem mem_dedupF (l : List (List Char)) (x : List Char) (h : x ∈ dedupF l) :
    x ∈ l := by
  rcases mem_foldl_insertNew l [] x h with h' | h'
  · simp at h'
  · exact h'

/-- C1 counterexample: the claim as stated is false.  The token filter
runs before stemming, so `extractKeywords "buys"` emits `"buy"`, which is
a member of the `COMMON_VERBS` noise set. -/
theorem claim_C1_counterexample :
    "buy".data ∈ extractKeywords "buys".data ∧ "buy".data ∈ COMMON_VERBS := by
  constructor
  · decide
  · decide

/-- C1 (amended): every keyword stored for a text has length > 1 and is
the stem of some nonempty normalized token that — before stemming — is
neither a stopword nor a common verb.  The stemmed keyword itself can
still be a stopword or common verb (see the counterexample), because the
noise filter runs before `stem`. -/
theorem claim_C1_amended (text k : List Char) (h : k ∈ extractKeywords text) :
    1 < k.length ∧
    ∃ t ∈ (splitSep (normalizeText text)).filter (fun t => !t.isEmpty),
      jsTrim t ∉ STOPWORDS ∧ jsTrim t ∉ COMMON_VERBS ∧ stem (jsTrim t) = k := by
  unfold extractKeywords at h
  have h1 := mem_dedupF _ _ h
  rcases List.mem_filter.mp h1 with ⟨h2, hlen⟩
  rcases List.mem_map.mp h2 with ⟨t0, ht0, rfl⟩
  rcases List.mem_filter.mp ht0 with ⟨h3, hflt⟩
  rcases List.mem_map.mp h3 with ⟨t, ht, rfl⟩
  have hflt' : jsTrim t ∉ STOPWORDS ∧ jsTrim t ∉ COMMON_VERBS := by
    simpa using hflt
  exact ⟨by simpa using hlen, t, ht, hflt'.1, hflt'.2, rfl⟩

theorem claim_C1_witness :
    1 < "cooking".data.length ∧
    ∃ t ∈ (splitSep (normalizeText "I am cooking pasta".data)).filter (fun t => !t.isEmpty),
      jsTrim t ∉ STOPWORDS ∧ jsTrim t ∉ COMMON_VERBS ∧ stem (jsTrim t) = "cooking".data :=
  claim_C1_amended "I am cooking pasta".data "cooking".data (by decide)

/-! ### C2, C3, C8: the entry store -/

theorem char_toNat_ofNat (n : Nat) (h : n < 55296) : (Char.ofNat n).toNat = n := by
  have hv : n.isValidChar := Or.inl h
  unfold Char.ofNat
  rw [dif_pos hv]
  rfl

theorem jsLowerChar_not_upper (c : Char) :
    isUpperCode (jsLowerChar c).toNat = false := by
  unfold jsLowerChar
  by_cases h : isUpperCode c.toNat = true
  · rw [if_pos h]
    simp only [isUpperCode, Bool.and_eq_true, decide_eq_true_eq] at h
    rw [char_toNat_ofNat (c.toNat + 32) (by omega)]
    simp only [isUpperCode, Bool.and_eq_false_iff, decide_eq_false_iff_not]
    omega
  · rw [if_neg h]
    exact Bool.eq_false_iff.mpr h

/-- C2 counterexample: the claim as stated is false.  `addEntry` neither
drops empty items nor de-duplicates: with the items argument
`["Milk", "milk", ""]` the stored items are `["milk", "milk", ""]`,
which contains an exact duplicate and an empty string. -/
theorem claim_C2_counterexample :
    ((addEntry 0 "iso".data "x".data [] ["Milk".data, "milk".data, "".data] []).1).items =
      ["milk".data, "milk".data, "".data] ∧
    ¬ ((addEntry 0 "iso".data "x".data [] ["Milk".data, "milk".data, "".data] []).1).items.Nodup ∧
    "".data ∈ ((addEntry 0 "iso".data "x".data [] ["Milk".data, "milk".data, "".data] []).1).items := by
  refine ⟨rfl, ?_, ?_⟩
  · decide
  · decide

/-- C2 (amended): the stored `items` are exactly the argument items
lowercased, in order; hence every stored item is lowercase (it contains no
ASCII uppercase letter).  `addEntry` itself neither removes empty strings
nor de-duplicates, so duplicates or empty strings among the arguments are
stored as-is (see the counterexample). -/
theorem claim_C2_amended (nowMs : Nat) (nowIso content : List Char)
    (tags items : List (List Char)) (st : List Entry) :
    (addEntry nowMs nowIso content tags items st).1.items = items.map jsLower ∧
    ∀ x ∈ (addEntry nowMs nowIso content tags items st).1.items,
      ∀ c ∈ x, isUpperCode c.toNat = false := by
  refine ⟨rfl, ?_⟩
  intro x hx c hc
  rcases List.mem_map.mp hx with ⟨y, _, rfl⟩
  rcases List.mem_map.mp hc with ⟨d, _, rfl⟩
  exact jsLowerChar_not_upper d

theorem claim_C2_witness :
    (addEntry 7 "iso".data "x".data [] ["Egg".data] []).1.items = ["Egg".data].map jsLower ∧
    ∀ x ∈ (addEntry 7 "iso".data "x".data [] ["Egg".data] []).1.items,
      ∀ c ∈ x, isUpperCode c.toNat = false := by
  have h := claim_C2_amended 7 "iso".data "x".data [] ["Egg".data] []
  exact ⟨h.1, h.2⟩

/-- C3: the claim (`id` collisions never occur) is right as a requirement
— the spec calls collisions a defect — but the code violates it:
`id = String(Date.now())`, so two `addEntry` calls within the same
millisecond observe the same `Date.now()` value and receive the same id.
Here both calls see `Date.now() = 1000`: two distinct entries, equal ids. -/
theorem claim_C3_id_collision :
    ((addEntry 1000 "iso".data "b".data [] []
        (addEntry 1000 "iso".data "a".data [] [] []).2).1).id =
    ((addEntry 1000 "iso".data "a".data [] [] []).1).id ∧
    (addEntry 1000 "iso".data "b".data [] []
        (addEntry 1000 "iso".data "a".data [] [] []).2).1 ≠
    (addEntry 1000 "iso".data "a".data [] [] []).1 := by
  refine ⟨rfl, ?_⟩
  decide

/-- C8: the store is newest-first: appending A then B onto any prior
store makes `allEntries` return B, then A, then the prior entries in
their previous order. -/
theorem claim_C8_store_order (st : List Entry)
    (n1 : Nat) (iso1 ca : List Char) (ta ia : List (List Char))
    (n2 : Nat) (iso2 cb : List Char) (tb ib : List (List Char)) :
    allEntries (addEntry n2 iso2 cb tb ib (addEntry n1 iso1 ca ta ia st).2).2 =
      (addEntry n2 iso2 cb tb ib (addEntry n1 iso1 ca ta ia st).2).1 ::
      (addEntry n1 iso1 ca ta ia st).1 :: st := rfl

/-! ### C6: the add-intent predicate -/

theorem boundaryLeft_cons (pw : Bool) (c : Char) (pre : List Char) :
    boundaryLeft pw (c :: pre) = boundaryLeft (isWordChar c) pre := by
  cases pre with
  | nil => rfl
  | cons d t => rfl

theorem boundaryLeft_false (pre : List Char) :
    boundaryLeft false pre = lastNotWord pre := by
  cases pre with
  | nil => rfl
  | cons d t => rfl

theorem cwAux_iff (w : List Char) (hw : w ≠ []) (l : List Char) :
    ∀ pw : Bool, cwAux w pw l = true ↔
      ∃ pre post, l = pre ++ w ++ post ∧ boundaryLeft pw pre = true ∧
        headNotWord post = true := by
  induction l with
  | nil =>
    intro pw
    constructor
    · intro h; cases h
    · rintro ⟨pre, post, hsplit, -, -⟩
      exfalso
      rcases List.append_eq_nil.mp hsplit.symm with ⟨h1, -⟩
      exact hw (List.append_eq_nil.mp h1).2
  | cons c rest ih =>
    intro pw
    have hstep : cwAux w pw (c :: rest) =
        ((!pw && w.isPrefixOf (c :: rest) &&
          headNotWord ((c :: rest).drop w.length)) ||
         cwAux w (isWordChar c) rest) := rfl
    rw [hstep, Bool.or_eq_true]
    constructor
    · rintro (h | h)
      · obtain ⟨h12, h3⟩ := Bool.and_eq_true_iff.mp h
        obtain ⟨h1, h2⟩ := Bool.and_eq_true_iff.mp h12
        obtain ⟨post, hpost⟩ := List.isPrefixOf_iff_prefix.mp h2
        refine ⟨[], post, by rw [← hpost]; rfl, ?_, ?_⟩
        · simpa [boundaryLeft] using h1
        · rwa [← hpost, List.drop_left] at h3
      · obtain ⟨pre', post, hsplit, hb, hh⟩ := (ih (isWordChar c)).mp h
        refine ⟨c :: pre', post, ?_, ?_, hh⟩
        · rw [List.cons_append, List.cons_append, ← hsplit]
        · rwa [boundaryLeft_cons]
    · rintro ⟨pre, post, hsplit, hb, hh⟩
      cases pre with
      | nil =>
        left
        simp only [List.nil_append] at hsplit
        have hpw : (!pw) = true := by simpa [boundaryLeft] using hb
        have hpre : w.isPrefixOf (c :: rest) = true :=
          List.isPrefixOf_iff_prefix.mpr ⟨post, hsplit.symm⟩
        have hdrop : headNotWord ((c :: rest).drop w.length) = true := by
          rw [hsplit, List.drop_left]; exact hh
        rw [hpw, hpre, hdrop]; rfl
      | cons c' pre' =>
        right
        rw [List.cons_append, List.cons_append, List.cons.injEq] at hsplit
        obtain ⟨rfl, hrest⟩ := hsplit
        refine (ih (isWordChar c)).mpr ⟨pre', post, by rw [hrest], ?_, hh⟩
        rwa [boundaryLeft_cons] at hb

theorem containsWordB_iff (w : List Char) (hw : w ≠ []) (l : List Char) :
    containsWordB w l = true ↔ occursAsWord w l := by
  unfold containsWordB occursAsWord
  rw [cwAux_iff w hw l false]
  constructor
  · rintro ⟨pre, post, h1, h2, h3⟩
    exact ⟨pre, post, h1, by rwa [boundaryLeft_false] at h2, h3⟩
  · rintro ⟨pre, post, h1, h2, h3⟩
    exact ⟨pre, post, h1, by rwa [boundaryLeft_false], h3⟩

/-- C6: `looksLikeAddIntent` holds iff the lowercased text contains a
word-boundary occurrence of some token of the action-verb group
{add, put, buy, need, remember, remind, get} and of some token of the
list-noun group {list, shopping, grocery, to-do/todo, task, supermarket};
and concretely it accepts "add milk to my shopping list" and rejects
"remind me to buy bread". -/
theorem claim_C6_add_intent :
    (∀ s : List Char, looksLikeAddIntent s = true ↔
      ((∃ w ∈ addVerbGroup, occursAsWord w (jsLower s)) ∧
       (∃ w ∈ listNounGroup, occursAsWord w (jsLower s)))) ∧
    looksLikeAddIntent "add milk to my shopping list".data = true ∧
    looksLikeAddIntent "remind me to buy bread".data = false := by
  refine ⟨?_, by decide, by decide⟩
  intro s
  have hverb : ∀ w ∈ addVerbGroup, w ≠ [] := by decide
  have hnoun : ∀ w ∈ listNounGroup, w ≠ [] := by decide
  unfold looksLikeAddIntent
  by_cases hs : s.isEmpty
  · rw [if_pos hs]
    have hnil : s = [] := List.isEmpty_iff.mp hs
    constructor
    · intro h; cases h
    · rintro ⟨⟨w, hwmem, pre, post, hsplit, -, -⟩, -⟩
      exfalso
      rw [hnil] at hsplit
      have hsplit' : pre ++ w ++ post = [] := by
        simpa [jsLower] using hsplit.symm
      rcases List.append_eq_nil.mp hsplit' with ⟨h1, -⟩
      exact hverb w hwmem (List.append_eq_nil.mp h1).2
  · rw [if_neg hs]
    rw [Bool.and_eq_true, List.any_eq_true, List.any_eq_true]
    constructor
    · rintro ⟨⟨w1, hm1, hc1⟩, ⟨w2, hm2, hc2⟩⟩
      exact ⟨⟨w1, hm1, (containsWordB_iff w1 (hverb w1 hm1) _).mp hc1⟩,
             ⟨w2, hm2, (containsWordB_iff w2 (hnoun w2 hm2) _).mp hc2⟩⟩
    · rintro ⟨⟨w1, hm1, hc1⟩, ⟨w2, hm2, hc2⟩⟩
      exact ⟨⟨w1, hm1, (containsWordB_iff w1 (hverb w1 hm1) _).mpr hc1⟩,
             ⟨w2, hm2, (containsWordB_iff w2 (hnoun w2 hm2) _).mpr hc2⟩⟩

theorem claim_C6_witness :
    (∃ w ∈ addVerbGroup, occursAsWord w (jsLower "I need eggs for my to-do list".data)) ∧
    (∃ w ∈ listNounGroup, occursAsWord w (jsLower "I need eggs for my to-do list".data)) :=
  (claim_C6_add_intent.1 "I need eggs for my to-do list".data).mp (by decide)

/-! ### C4, C5: literal fallback-extraction cases -/

/-- C4: `fallbackExtractItems "Add eggs and milk to my shopping list"`
returns exactly `["egg", "milk"]` (pattern 1 captures "eggs and milk",
which splits on `" and "`, and `stem` maps "eggs" to "egg"). -/
theorem claim_C4_fallback_eggs_milk :
    fallbackExtractItems "Add eggs and milk to my shopping list".data =
      ["egg".data, "milk".data] := by decide

/-- C5 counterexample: `fallbackExtractItems "Don't forget bread"` does
not return `["bread"]`.  Pattern 1's alternative is the literal
`don't forget to`, which requires the word "to", so no phrase pattern
matches this input and the conservative token scan runs instead. -/
theorem claim_C5_counterexample :
    fallbackExtractItems "Don't forget bread".data ≠ ["bread".data] := by decide

/-- C5 (amended): on "Don't forget bread" the extractor falls through to
the conservative token scan and returns `["don't", "forget", "bread"]`. -/
theorem claim_C5_amended_result :
    fallbackExtractItems "Don't forget bread".data =
      ["don't".data, "forget".data, "bread".data] := by decide

/-! ### C10: aggregation of shopping items over query results -/

theorem pushClean_eq (acc : List (List Char)) (it : List Char) :
    pushClean acc it =
      if cleanItem it = [] then acc else insertNew acc (cleanItem it) := by
  by_cases h1 : cleanItem it = []
  · simp [pushClean, insertNew, h1]
  · by_cases h2 : cleanItem it ∈ acc
    · simp [pushClean, insertNew, h1, h2]
    · simp [pushClean, insertNew, h1, h2]

theorem foldl_pushClean_eq (xs : List (List Char)) :
    ∀ acc, xs.foldl pushClean acc =
      ((xs.map cleanItem).filter (fun c => !c.isEmpty)).foldl insertNew acc := by
  induction xs with
  | nil => intro acc; rfl
  | cons x rest ih =>
    intro acc
    rw [List.foldl_cons, pushClean_eq, List.map_cons, List.filter_cons]
    by_cases h : cleanItem x = []
    · rw [if_pos h, ih]
      simp [h]
    · rw [if_neg h, ih]
      have : (!(cleanItem x).isEmpty) = true := by
        simp [List.isEmpty_iff, h]
      rw [this, if_pos rfl, List.foldl_cons]

theorem getShopping_foldl_eq (results : List Entry) :
    ∀ acc, results.foldl (fun acc r =>
        if !r.items.isEmpty then r.items.foldl pushClean acc
        else (fallbackExtractItems r.content).foldl pushClean acc) acc =
      (((results.flatMap entryItemSource).map cleanItem).filter
        (fun c => !c.isEmpty)).foldl insertNew acc := by
  induction results with
  | nil => intro acc; rfl
  | cons r rest ih =>
    intro acc
    rw [List.foldl_cons, List.flatMap_cons, List.map_append, List.filter_append,
      List.foldl_append, ← ih]
    congr 1
    unfold entryItemSource
    by_cases h : r.items = []
    · rw [if_pos h, h]
      have : (!(([] : List (List Char))).isEmpty) = false := rfl
      rw [this, if_neg (by simp), foldl_pushClean_eq]
    · rw [if_neg h]
      have : (!r.items.isEmpty) = true := by simp [List.isEmpty_iff, h]
      rw [this, if_pos rfl, foldl_pushClean_eq]

theorem foldl_insertNew_split (l : List (List Char)) :
    ∀ acc, ∃ t, l.foldl insertNew acc = acc ++ t ∧ t.Sublist l := by
  induction l with
  | nil => intro acc; exact ⟨[], by simp, List.Sublist.refl []⟩
  | cons x rest ih =>
    intro acc
    rw [List.foldl_cons]
    by_cases h : x ∈ acc
    · rw [show insertNew acc x = acc from if_pos h]
      obtain ⟨t, ht, hs⟩ := ih acc
      exact ⟨t, ht, hs.cons x⟩
    · rw [show insertNew acc x = acc ++ [x] from if_neg h]
      obtain ⟨t, ht, hs⟩ := ih (acc ++ [x])
      refine ⟨x :: t, ?_, hs.cons₂ x⟩
      rw [ht, List.append_assoc]
      rfl

theorem dedupF_sublist (l : List (List Char)) : (dedupF l).Sublist l := by
  obtain ⟨t, ht, hs⟩ := foldl_insertNew_split l []
  unfold dedupF
  rw [ht]
  simpa using hs

theorem foldl_insertNew_nodup (l : List (List Char)) :
    ∀ acc, acc.Nodup → (l.foldl insertNew acc).Nodup := by
  induction l with
  | nil => intro acc h; exact h
  | cons x rest ih =>
    intro acc h
    rw [List.foldl_cons]
    unfold insertNew
    by_cases hx : x ∈ acc
    · rw [if_pos hx]; exact ih acc h
    · rw [if_neg hx]
      refine ih _ ?_
      rw [← List.concat_eq_append]
      exact h.concat hx

theorem dedupF_nodup (l : List (List Char)) : (dedupF l).Nodup :=
  foldl_insertNew_nodup l [] List.nodup_nil

/-- C10: `getShoppingItemsForResults` processes entries in result order,
takes each entry's cached `items` when nonempty and otherwise the
fallback extraction from its content, and returns the trimmed/lowercased
nonempty candidates de-duplicated across all entries preserving
first-occurrence order (`dedupF` keeps first occurrences: its result is
duplicate-free and an order-preserving sublist of its input). -/
theorem claim_C10_aggregation :
    (∀ results : List Entry, getShoppingItemsForResults results =
      dedupF (((results.flatMap entryItemSource).map cleanItem).filter
        (fun c => !c.isEmpty))) ∧
    (∀ l : List (List Char), (dedupF l).Sublist l) ∧
    (∀ l : List (List Char), (dedupF l).Nodup) := by
  refine ⟨?_, dedupF_sublist, dedupF_nodup⟩
  intro results
  unfold getShoppingItemsForResults dedupF
  exact getShopping_foldl_eq results []

theorem claim_C10_witness :
    getShoppingItemsForResults
      [Entry.mk "1".data "note".data [] [] ["Milk ".data, "milk".data, "".data] "t".data,
       Entry.mk "2".data "buy apples and milk".data [] [] [] "t".data] =
      dedupF ((([Entry.mk "1".data "note".data [] []
            ["Milk ".data, "milk".data, "".data] "t".data,
          Entry.mk "2".data "buy apples and milk".data [] [] [] "t".data].flatMap
            entryItemSource).map cleanItem).filter (fun c => !c.isEmpty)) :=
  claim_C10_aggregation.1 _

theorem claim_C8_witness :
    allEntries (addEntry 2 "t2".data "b".data [] []
        (addEntry 1 "t1".data "a".data [] [] []).2).2 =
      (addEntry 2 "t2".data "b".data [] []
        (addEntry 1 "t1".data "a".data [] [] []).2).1 ::
      (addEntry 1 "t1".data "a".data [] [] []).1 :: [] :=
  claim_C8_store_order [] 1 "t1".data "a".data [] [] 2 "t2".data "b".data [] []

end Journal
